import Mathlib

/-!
Verification of the comment-stripping lexer of `uithub-local`
(`src/uithub_local/utils.py`), shallowly embedded over `List Char`.

Strings are modelled as lists of characters.  Python's `str.splitlines`,
`str.rstrip`, `"\n".join`, and `re.sub` with a lazy `DOTALL` block-comment
pattern are modelled explicitly below; each scanner mirrors the branch
structure of its Python source function and keeps its name.
-/

namespace UithubLocal

/-- Characters at which Python's `str.splitlines` breaks a line
(LF, CR, VT, FF, FS, GS, RS, NEL, LINE SEPARATOR, PARAGRAPH SEPARATOR). -/
def isBreak (c : Char) : Bool :=
  c = '\n' || c = '\r' || c.val = 11 || c.val = 12 || c.val = 28 ||
  c.val = 29 || c.val = 30 || c.val = 133 || c.val = 8232 || c.val = 8233

/-- Characters stripped by Python's `str.rstrip()` (the `str.isspace` set). -/
def isPySpace (c : Char) : Bool :=
  c.val = 9 || c.val = 10 || c.val = 11 || c.val = 12 || c.val = 13 ||
  c.val = 28 || c.val = 29 || c.val = 30 || c.val = 31 || c.val = 32 ||
  c.val = 133 || c.val = 160 || c.val = 5760 ||
  (8192 ≤ c.val && c.val ≤ 8202) ||
  c.val = 8232 || c.val = 8233 || c.val = 8239 || c.val = 8287 || c.val = 12288

/-- Python `str.rstrip()`: drop trailing whitespace. -/
def rstrip (l : List Char) : List Char :=
  (l.reverse.dropWhile isPySpace).reverse

/-- Index of the first occurrence of `pat` as a contiguous substring,
`none` if it does not occur.  Models the left-to-right search of `re`
for a literal pattern. -/
def occurs (pat : List Char) : List Char → Option Nat
  | [] => if pat.isEmpty then some 0 else none
  | c :: t => if pat.isPrefixOf (c :: t) then some 0 else (occurs pat t).map (· + 1)

/-- Python `"\n".join`: interleave `'\n'` strictly between elements. -/
def joinNl : List (List Char) → List Char
  | [] => []
  | [l] => l
  | l :: ls => l ++ '\n' :: joinNl ls

/-- Worker for `splitlines`: `acc` holds the current line reversed, and
every break emits a segment (a trailing empty segment is removed by
`splitlines` itself).  `skipNl` is set right after a `'\r'` so that a
following `'\n'` is consumed silently, making `"\r\n"` a single break. -/
def slGo (skipNl : Bool) (acc : List Char) : List Char → List (List Char)
  | [] => [acc.reverse]
  | c :: t =>
    if skipNl ∧ c = '\n' then slGo false acc t
    else if c = '\r' then acc.reverse :: slGo true [] t
    else if isBreak c then acc.reverse :: slGo false [] t
    else slGo false (c :: acc) t

/-- Python `str.splitlines()`: split at every break, then drop the trailing
empty segment that arises exactly when the input is empty or ends in a
break (Python emits no empty final line in that case). -/
def splitlines (s : List Char) : List (List Char) :=
  let ls := slGo false [] s
  if ls.getLast? = some [] then ls.dropLast else ls

/-- Per-line scanner of `_strip_hash_comments`: emit characters, tracking
single/double-quote state and a pending escape (set only inside a string),
and stop at a `'#'` seen outside any string. -/
def hashLineGo (inS inD esc : Bool) : List Char → List Char
  | [] => []
  | c :: t =>
    if esc then c :: hashLineGo inS inD false t
    else if c = '\\' ∧ (inS ∨ inD) then c :: hashLineGo inS inD true t
    else if c = '\'' ∧ ¬inD then c :: hashLineGo (!inS) inD esc t
    else if c = '"' ∧ ¬inS then c :: hashLineGo inS (!inD) esc t
    else if c = '#' ∧ ¬inS ∧ ¬inD then []
    else c :: hashLineGo inS inD esc t

/-- One line of `_strip_hash_comments`: scan, then `rstrip` the kept part. -/
def hashLine (l : List Char) : List Char :=
  rstrip (hashLineGo false false false l)

/-- Function `_strip_hash_comments` from `utils.py`. -/
def strip_hash_comments (s : List Char) : List Char :=
  joinNl ((splitlines s).map hashLine)

/-- Scanner phase of `_strip_c_style_comments`: `code` is ordinary scanning;
`lineC` is skipping a `//` comment (the terminating newline is re-emitted);
`blockEnter` consumes the `'*'` of an opening `"/*"`; `blockC` is skipping a
block comment; `blockClose` consumes the `'/'` of a closing `"*/"`. -/
inductive CMode
| code
| lineC
| blockEnter
| blockC
| blockClose
deriving DecidableEq

/-- Function `_strip_c_style_comments` as a single character-at-a-time pass, with the
Python cursor/`while` loop expressed through `CMode`.  Branch order matches
the source: pending escape, backslash inside a string, quote toggles, then
comment detection outside strings. -/
def cRun (inS inD esc : Bool) (mode : CMode) : List Char → List Char
  | [] => []
  | c :: t =>
    match mode with
    | CMode.lineC =>
      if c = '\n' then '\n' :: cRun inS inD esc CMode.code t
      else cRun inS inD esc CMode.lineC t
    | CMode.blockEnter => cRun inS inD esc CMode.blockC t
    | CMode.blockC =>
      if c = '*' ∧ t.head? = some '/' then cRun inS inD esc CMode.blockClose t
      else cRun inS inD esc CMode.blockC t
    | CMode.blockClose => cRun inS inD esc CMode.code t
    | CMode.code =>
      if esc then c :: cRun inS inD false CMode.code t
      else if c = '\\' ∧ (inS ∨ inD) then c :: cRun inS inD true CMode.code t
      else if c = '\'' ∧ ¬inD then c :: cRun (!inS) inD esc CMode.code t
      else if c = '"' ∧ ¬inS then c :: cRun inS (!inD) esc CMode.code t
      else if ¬inS ∧ ¬inD then
        if c = '/' ∧ t.head? = some '/' then cRun inS inD esc CMode.lineC t
        else if c = '/' ∧ t.head? = some '*' then cRun inS inD esc CMode.blockEnter t
        else c :: cRun inS inD esc CMode.code t
      else c :: cRun inS inD esc CMode.code t

/-- Function `_strip_c_style_comments` from `utils.py`. -/
def strip_c_style_comments (s : List Char) : List Char :=
  cRun false false false CMode.code s

/-- Model of `re.sub(op ++ ".*?" ++ cl, "", s, flags=re.DOTALL)` for literal opener
and closer: repeatedly remove the span from the leftmost opener to the first
closer at or after the opener's end, scanning on after each removed span.
When the leftmost opener has no closer after it, no later opener has one
either, so nothing matches and the text is returned unchanged.  (The
`op.isEmpty` guard is only for termination; every caller passes a nonempty
opener.) -/
def stripBlocks (op cl : List Char) (s : List Char) : List Char :=
  if op.isEmpty then s
  else
    match h1 : occurs op s with
    | none => s
    | some i =>
      match occurs cl (s.drop (i + op.length)) with
      | none => s
      | some j =>
        s.take i ++ stripBlocks op cl ((s.drop (i + op.length)).drop (j + cl.length))
termination_by s.length
decreasing_by
  simp only [List.length_drop]
  have hop : op ≠ [] := by
    intro h
    simp [h, List.isEmpty] at *
  have hlen : 0 < op.length := List.length_pos.mpr hop
  have hs : s ≠ [] := by
    intro h
    subst h
    simp [occurs, List.isPrefixOf_iff_prefix, List.prefix_nil, hop] at h1
  have hs' : 0 < s.length := List.length_pos.mpr hs
  omega

/-- Function `_strip_html_comments` from `utils.py`: `re.sub(r"<!--.*?-->", "", s, DOTALL)`. -/
def strip_html_comments (s : List Char) : List Char :=
  stripBlocks ['<', '!', '-', '-'] ['-', '-', '>'] s

/-- Scanner phase of `_strip_css_comments`: `code` is ordinary scanning,
`escNext` emits the character after a backslash seen inside a string,
`blockEnter` consumes the `'*'` of an opening `"/*"`, `blockC` skips a block
comment, `blockClose` consumes the `'/'` of a closing `"*/"`. -/
inductive CssMode
| code
| escNext
| blockEnter
| blockC
| blockClose
deriving DecidableEq

/-- Function `_strip_css_comments` as a character-at-a-time pass.  Branch order
matches the source: in-comment handling, comment start outside strings,
escape inside strings (backslash plus following character both emitted),
quote toggles, default emit. -/
def cssRun (inS inD : Bool) (mode : CssMode) : List Char → List Char
  | [] => []
  | c :: t =>
    match mode with
    | CssMode.blockC =>
      if c = '*' ∧ t.head? = some '/' then cssRun inS inD CssMode.blockClose t
      else cssRun inS inD CssMode.blockC t
    | CssMode.blockClose => cssRun inS inD CssMode.code t
    | CssMode.blockEnter => cssRun inS inD CssMode.blockC t
    | CssMode.escNext => c :: cssRun inS inD CssMode.code t
    | CssMode.code =>
      if ¬inS ∧ ¬inD ∧ c = '/' ∧ t.head? = some '*' then
        cssRun inS inD CssMode.blockEnter t
      else if (inS ∨ inD) ∧ c = '\\' ∧ t ≠ [] then c :: cssRun inS inD CssMode.escNext t
      else if c = '\'' ∧ ¬inD then c :: cssRun (!inS) inD CssMode.code t
      else if c = '"' ∧ ¬inS then c :: cssRun inS (!inD) CssMode.code t
      else c :: cssRun inS inD CssMode.code t

/-- Function `_strip_css_comments` from `utils.py`. -/
def strip_css_comments (s : List Char) : List Char :=
  cssRun false false CssMode.code s

/-- Cursor scan of `_strip_sql_line_comment`: returns the index at which an
unquoted `--` starts, if any.  A doubled quote inside its matching literal
(`''` inside `'...'`, `""` inside `"..."`) consumes both characters and
stays inside the literal. -/
def sqlLineIdx (inS inD : Bool) (i : Nat) : List Char → Option Nat
  | [] => none
  | [c] =>
    if c = '\'' ∧ ¬inD then none
    else if c = '"' ∧ ¬inS then none
    else none
  | c :: d :: t =>
    if c = '\'' ∧ ¬inD then
      if inS ∧ d = '\'' then sqlLineIdx inS inD (i + 2) t
      else sqlLineIdx (!inS) inD (i + 1) (d :: t)
    else if c = '"' ∧ ¬inS then
      if inD ∧ d = '"' then sqlLineIdx inS inD (i + 2) t
      else sqlLineIdx inS (!inD) (i + 1) (d :: t)
    else if ¬inS ∧ ¬inD ∧ c = '-' ∧ d = '-' then some i
    else sqlLineIdx inS inD (i + 1) (d :: t)

/-- Function `_strip_sql_line_comment` from `utils.py`. -/
def strip_sql_line_comment (line : List Char) : List Char :=
  match sqlLineIdx false false 0 line with
  | some i => rstrip (line.take i)
  | none => line

/-- The first pass of `_strip_sql_comments`: `re.sub(r"/\*.*?\*/", "", s, DOTALL)`. -/
def sql_block_pass (s : List Char) : List Char :=
  stripBlocks ['/', '*'] ['*', '/'] s

/-- Function `_strip_sql_comments` from `utils.py`: block pass, then the line pass
applied per `splitlines` line, rejoined with `'\n'`. -/
def strip_sql_comments (s : List Char) : List Char :=
  joinNl ((splitlines (sql_block_pass s)).map strip_sql_line_comment)

/-- Cursor scan of `_strip_line_comment`: index of the first occurrence of
`marker` outside any string/char literal.  Note that in this scanner (unlike
the hash scanner) a backslash sets the pending escape unconditionally, even
outside string literals. -/
def lineCommentIdx (marker : List Char) (inS inD esc : Bool) (i : Nat) :
    List Char → Option Nat
  | [] => none
  | c :: t =>
    if esc then lineCommentIdx marker inS inD false (i + 1) t
    else if c = '\\' then lineCommentIdx marker inS inD true (i + 1) t
    else if c = '\'' ∧ ¬inD then lineCommentIdx marker (!inS) inD esc (i + 1) t
    else if c = '"' ∧ ¬inS then lineCommentIdx marker inS (!inD) esc (i + 1) t
    else if ¬inS ∧ ¬inD ∧ marker.isPrefixOf (c :: t) then some i
    else lineCommentIdx marker inS inD esc (i + 1) t

/-- Function `_strip_line_comment` from `utils.py`. -/
def strip_line_comment (line marker : List Char) : List Char :=
  match lineCommentIdx marker false false false 0 line with
  | some i => rstrip (line.take i)
  | none => line

/-- Function `_strip_lua_comments` from `utils.py`: remove `--[[ ... ]]` blocks, then
strip `--` line comments per line. -/
def strip_lua_comments (s : List Char) : List Char :=
  joinNl ((splitlines (stripBlocks ['-', '-', '[', '['] [']', ']'] s)).map
    (fun l => strip_line_comment l ['-', '-']))

/-- Function `_strip_haskell_comments` from `utils.py`: remove `{- ... -}` blocks,
then strip `--` line comments per line. -/
def strip_haskell_comments (s : List Char) : List Char :=
  joinNl ((splitlines (stripBlocks ['{', '-'] ['-', '}'] s)).map
    (fun l => strip_line_comment l ['-', '-']))

/-- Per-line scanner of `_strip_lisp_comments`: only double-quoted strings
are tracked; a `';'` outside a string ends the line. -/
def lispLineGo (inStr esc : Bool) : List Char → List Char
  | [] => []
  | c :: t =>
    if esc then c :: lispLineGo inStr false t
    else if c = '\\' ∧ inStr then c :: lispLineGo inStr true t
    else if c = '"' then c :: lispLineGo (!inStr) esc t
    else if c = ';' ∧ ¬inStr then []
    else c :: lispLineGo inStr esc t

/-- One line of `_strip_lisp_comments`. -/
def lispLine (l : List Char) : List Char :=
  rstrip (lispLineGo false false l)

/-- Function `_strip_lisp_comments` from `utils.py`. -/
def strip_lisp_comments (s : List Char) : List Char :=
  joinNl ((splitlines s).map lispLine)

/-- Extensions dispatched to `_strip_hash_comments`. -/
def hashExts : List (List Char) :=
  [['.', 'p', 'y'], ['.', 'p', 'y', 'w'], ['.', 'r', 'b'], ['.', 's', 'h'],
   ['.', 'b', 'a', 's', 'h'], ['.', 'z', 's', 'h'], ['.', 'y', 'm', 'l'],
   ['.', 'y', 'a', 'm', 'l'], ['.', 't', 'o', 'm', 'l'],
   ['.', 'c', 'o', 'n', 'f'], ['.', 'i', 'n', 'i'], ['.', 'r'],
   ['.', 'p', 'l'], ['.', 't', 'c', 'l']]

/-- Extensions dispatched to `_strip_c_style_comments`. -/
def cStyleExts : List (List Char) :=
  [['.', 'c'], ['.', 'h'], ['.', 'c', 'p', 'p'], ['.', 'h', 'p', 'p'],
   ['.', 'c', 'c'], ['.', 'c', 'x', 'x'], ['.', 'j', 'a', 'v', 'a'],
   ['.', 'j', 's'], ['.', 'j', 's', 'x'], ['.', 't', 's'],
   ['.', 't', 's', 'x'], ['.', 'g', 'o'], ['.', 'r', 's'],
   ['.', 'c', 's'], ['.', 's', 'w', 'i', 'f', 't'], ['.', 'k', 't'],
   ['.', 'k', 't', 's'], ['.', 's', 'c', 'a', 'l', 'a'], ['.', 'm'],
   ['.', 'm', 'm'], ['.', 'p', 'h', 'p'], ['.', 'd', 'a', 'r', 't']]

/-- Extensions dispatched to `_strip_html_comments`. -/
def htmlExts : List (List Char) :=
  [['.', 'h', 't', 'm', 'l'], ['.', 'h', 't', 'm'], ['.', 'x', 'm', 'l'],
   ['.', 's', 'v', 'g'], ['.', 'x', 'h', 't', 'm', 'l']]

/-- Extensions dispatched to `_strip_css_comments`. -/
def cssExts : List (List Char) :=
  [['.', 'c', 's', 's'], ['.', 's', 'c', 's', 's'],
   ['.', 's', 'a', 's', 's'], ['.', 'l', 'e', 's', 's']]

/-- Extensions dispatched to `_strip_sql_comments`. -/
def sqlExts : List (List Char) := [['.', 's', 'q', 'l']]

/-- Extensions dispatched to `_strip_lua_comments`. -/
def luaExts : List (List Char) := [['.', 'l', 'u', 'a']]

/-- Extensions dispatched to `_strip_haskell_comments`. -/
def haskellExts : List (List Char) := [['.', 'h', 's'], ['.', 'l', 'h', 's']]

/-- Extensions dispatched to `_strip_lisp_comments`. -/
def lispExts : List (List Char) :=
  [['.', 'l', 'i', 's', 'p'], ['.', 'c', 'l'], ['.', 'e', 'l'],
   ['.', 's', 'c', 'm'], ['.', 'c', 'l', 'j'], ['.', 'c', 'l', 'j', 's']]

/-- Function `strip_comments` from `utils.py`.  `suffix` is the file's extension
(`Path.suffix`, dot included); the source lowercases it (modelled here with
the ASCII `Char.toLower`, which covers every extension in the tables) and
dispatches on the extension sets, returning the content unchanged for any
extension with no defined family. -/
def strip_comments (content : List Char) (suffix : List Char) : List Char :=
  let ext := suffix.map Char.toLower
  if hashExts.contains ext then strip_hash_comments content
  else if cStyleExts.contains ext then strip_c_style_comments content
  else if htmlExts.contains ext then strip_html_comments content
  else if cssExts.contains ext then strip_css_comments content
  else if sqlExts.contains ext then strip_sql_comments content
  else if luaExts.contains ext then strip_lua_comments content
  else if haskellExts.contains ext then strip_haskell_comments content
  else if lispExts.contains ext then strip_lisp_comments content
  else content

/-- All characters of `l` are outside the `splitlines` break set. -/
def breakFree (l : List Char) : Prop := ∀ c ∈ l, isBreak c = false

/-- Every line-break character of `s` is a plain `'\n'` (no `'\r'` or other
exotic terminators). -/
def onlyNl (s : List Char) : Prop := ∀ c ∈ s, isBreak c = true → c = '\n'

/-! ### Helper lemmas -/

theorem dropWhile_idem (p : Char → Bool) (l : List Char) :
    (l.dropWhile p).dropWhile p = l.dropWhile p := by
  induction l with
  | nil => rfl
  | cons c t ih =>
    by_cases h : p c
    · simp [List.dropWhile_cons, h, ih]
    · simp [List.dropWhile_cons, h]

theorem rstrip_append_spaces (l : List Char) : ∃ t, l = rstrip l ++ t := by
  refine ⟨(l.reverse.takeWhile isPySpace).reverse, ?_⟩
  conv_lhs => rw [← List.reverse_reverse l,
    ← List.takeWhile_append_dropWhile (p := isPySpace) (l := l.reverse)]
  rw [List.reverse_append]
  rfl

theorem rstrip_sublist (l : List Char) : List.Sublist (rstrip l) l := by
  obtain ⟨t, ht⟩ := rstrip_append_spaces l
  conv_rhs => rw [ht]
  exact List.sublist_append_left _ _

theorem rstrip_idem (l : List Char) : rstrip (rstrip l) = rstrip l := by
  simp [rstrip, dropWhile_idem]

theorem occurs_cons_none {pat : List Char} {c : Char} {t : List Char}
    (h : occurs pat (c :: t) = none) :
    pat.isPrefixOf (c :: t) = false ∧ occurs pat t = none := by
  by_cases hp : pat.isPrefixOf (c :: t)
  · simp [occurs, hp] at h
  · simp only [occurs, hp, Bool.false_eq_true, if_false, Option.map_eq_none'] at h
    exact ⟨by simp [hp], h⟩

theorem isPrefixOf_two {a b c : Char} {t : List Char} :
    ([a, b] : List Char).isPrefixOf (c :: t) = true ↔ c = a ∧ t.head? = some b := by
  cases t with
  | nil => simp [List.isPrefixOf]
  | cons d t' =>
    simp only [List.isPrefixOf, List.head?_cons, Option.some.injEq, Bool.and_eq_true, beq_iff_eq]
    constructor
    · rintro ⟨h1, h2, -⟩
      exact ⟨h1.symm, h2.symm⟩
    · rintro ⟨h1, h2⟩
      exact ⟨h1.symm, h2.symm, trivial⟩

theorem slGo_cons_nobreak {c : Char} (acc t : List Char) (h : isBreak c = false) :
    slGo false acc (c :: t) = slGo false (c :: acc) t := by
  have h1 : c ≠ '\r' := by rintro rfl; simp [isBreak] at h
  have h2 : isBreak c ≠ true := by simp [h]
  simp [slGo, h1, h2]

theorem slGo_nl (acc t : List Char) :
    slGo false acc ('\n' :: t) = acc.reverse :: slGo false [] t := by
  simp [slGo, isBreak]

theorem slGo_ne_nil (sk : Bool) (acc t : List Char) : slGo sk acc t ≠ [] := by
  induction t generalizing sk acc with
  | nil => simp [slGo]
  | cons c t ih =>
    simp only [slGo]
    split
    · exact ih _ _
    · split
      · simp
      · split
        · simp
        · exact ih _ _

theorem slGo_prepend {u : List Char} (h : breakFree u) (acc t : List Char) :
    slGo false acc (u ++ t) = slGo false (u.reverse ++ acc) t := by
  induction u generalizing acc with
  | nil => simp
  | cons c u' ih =>
    have hc : isBreak c = false := h c (List.mem_cons_self _ _)
    have h' : breakFree u' := fun d hd => h d (List.mem_cons_of_mem _ hd)
    rw [List.cons_append, slGo_cons_nobreak _ _ hc, ih h']
    simp

theorem slGo_breakFree {u : List Char} (h : breakFree u) :
    slGo false [] u = [u] := by
  have := slGo_prepend h [] []
  simpa [slGo] using this

theorem splitlines_breakFree {s : List Char} (h : breakFree s) (hs : s ≠ []) :
    splitlines s = [s] := by
  simp only [splitlines, slGo_breakFree h]
  simp [hs]

theorem breakFree_of_mem_slGo {sk : Bool} {acc t : List Char}
    (hacc : breakFree acc.reverse) {l : List Char} (hl : l ∈ slGo sk acc t) :
    breakFree l := by
  induction t generalizing sk acc with
  | nil =>
    simp only [slGo, List.mem_singleton] at hl
    exact hl ▸ hacc
  | cons c t ih =>
    simp only [slGo] at hl
    split at hl
    · exact ih hacc hl
    · split at hl
      · rcases List.mem_cons.mp hl with rfl | hl'
        · exact hacc
        · exact ih (by intro x hx; simp at hx) hl'
      · split at hl
        · rcases List.mem_cons.mp hl with rfl | hl'
          · exact hacc
          · exact ih (by intro x hx; simp at hx) hl'
        · refine ih ?_ hl
          rename_i h1 h2 h3
          intro x hx
          simp only [List.reverse_cons, List.mem_append, List.mem_singleton] at hx
          rcases hx with hx | rfl
          · exact hacc x hx
          · simpa using h3

theorem joinNl_cons {l : List Char} {ls : List (List Char)} (h : ls ≠ []) :
    joinNl (l :: ls) = l ++ '\n' :: joinNl ls := by
  cases ls with
  | nil => exact absurd rfl h
  | cons a as => rfl

theorem slGo_joinNl {ps : List (List Char)} (hne : ps ≠ [])
    (hbf : ∀ l ∈ ps, breakFree l) : slGo false [] (joinNl ps) = ps := by
  induction ps with
  | nil => exact absurd rfl hne
  | cons p ps ih =>
    cases ps with
    | nil =>
      show slGo false [] (joinNl [p]) = [p]
      exact slGo_breakFree (hbf p (List.mem_cons_self _ _))
    | cons q qs =>
      rw [joinNl_cons (by simp)]
      have hp : breakFree p := hbf p (List.mem_cons_self _ _)
      have := slGo_prepend hp [] ('\n' :: joinNl (q :: qs))
      rw [this, List.append_nil, slGo_nl, List.reverse_reverse]
      rw [ih (by simp) (fun l hl => hbf l (List.mem_cons_of_mem _ hl))]

theorem splitlines_joinNl {ps : List (List Char)} (hne : ps ≠ [])
    (hbf : ∀ l ∈ ps, breakFree l) (hlast : ps.getLast? ≠ some []) :
    splitlines (joinNl ps) = ps := by
  simp only [splitlines, slGo_joinNl hne hbf]
  rw [if_neg hlast]

theorem joinNl_ne_nil {ps : List (List Char)} {q : List Char}
    (h : ps.getLast? = some q) (hq : q ≠ []) : joinNl ps ≠ [] := by
  cases ps with
  | nil => simp at h
  | cons p ps =>
    cases ps with
    | nil =>
      have : p = q := by simpa using h
      subst this
      simpa [joinNl] using hq
    | cons a as =>
      rw [joinNl_cons (by simp)]
      simp

theorem getLast?_joinNl {ps : List (List Char)} {q : List Char}
    (h : ps.getLast? = some q) (hq : q ≠ []) :
    (joinNl ps).getLast? = q.getLast? := by
  induction ps with
  | nil => simp at h
  | cons p ps ih =>
    cases ps with
    | nil =>
      have : p = q := by simpa using h
      subst this
      rfl
    | cons a as =>
      have h' : (a :: as).getLast? = some q := by
        rw [← List.getLast?_cons_cons (a := p)]
        exact h
      rw [joinNl_cons (by simp), List.getLast?_append_cons]
      have hJne : joinNl (a :: as) ≠ [] := joinNl_ne_nil h' hq
      rcases hJ : joinNl (a :: as) with _ | ⟨x, xs⟩
      · exact absurd hJ hJne
      · rw [List.getLast?_cons_cons, ← hJ, ih h']

theorem getLast?_joinNl_of_last_nil {ps : List (List Char)}
    (h : ps.getLast? = some []) (h2 : 2 ≤ ps.length) :
    (joinNl ps).getLast? = some '\n' := by
  induction ps with
  | nil => simp at h
  | cons p ps ih =>
    cases ps with
    | nil => simp at h2
    | cons a as =>
      have h' : (a :: as).getLast? = some [] := by
        rw [← List.getLast?_cons_cons (a := p)]
        exact h
      rw [joinNl_cons (by simp), List.getLast?_append_cons]
      cases as with
      | nil =>
        have : a = [] := by simpa using h'
        subst this
        rfl
      | cons b bs =>
        have hJ := ih h' (by simp)
        have hJne : joinNl (a :: b :: bs) ≠ [] := by
          intro hnil
          rw [hnil] at hJ
          simp at hJ
        rcases hJeq : joinNl (a :: b :: bs) with _ | ⟨x, xs⟩
        · exact absurd hJeq hJne
        · rw [List.getLast?_cons_cons, ← hJeq, hJ]

theorem breakFree_of_mem_splitlines {s l : List Char} (hl : l ∈ splitlines s) :
    breakFree l := by
  have hmem : l ∈ slGo false [] s := by
    simp only [splitlines] at hl
    split at hl
    · exact List.dropLast_sublist _ |>.subset hl
    · exact hl
  exact breakFree_of_mem_slGo (by intro x hx; simp at hx) hmem

theorem breakFree_of_sublist {p m : List Char} (h : List.Sublist p m)
    (hm : breakFree m) : breakFree p :=
  fun c hc => hm c (h.subset hc)

theorem hashLineGo_sublist (inS inD esc : Bool) (l : List Char) :
    List.Sublist (hashLineGo inS inD esc l) l := by
  induction l generalizing inS inD esc with
  | nil => simp [hashLineGo]
  | cons c t ih =>
    simp only [hashLineGo]
    split
    · exact List.Sublist.cons₂ _ (ih ..)
    · split
      · exact List.Sublist.cons₂ _ (ih ..)
      · split
        · exact List.Sublist.cons₂ _ (ih ..)
        · split
          · exact List.Sublist.cons₂ _ (ih ..)
          · split
            · exact List.nil_sublist _
            · exact List.Sublist.cons₂ _ (ih ..)

theorem hashLineGo_idem (inS inD esc : Bool) (l : List Char) :
    hashLineGo inS inD esc (hashLineGo inS inD esc l) = hashLineGo inS inD esc l := by
  induction l generalizing inS inD esc with
  | nil => simp [hashLineGo]
  | cons c t ih =>
    simp only [hashLineGo]
    split
    · rename_i h1
      simp only [hashLineGo, if_pos h1]
      rw [ih]
    · split
      · rename_i h1 h2
        simp only [hashLineGo, if_neg h1, if_pos h2]
        rw [ih]
      · split
        · rename_i h1 h2 h3
          simp only [hashLineGo, if_neg h1, if_neg h2, if_pos h3]
          rw [ih]
        · split
          · rename_i h1 h2 h3 h4
            simp only [hashLineGo, if_neg h1, if_neg h2, if_neg h3, if_pos h4]
            rw [ih]
          · split
            · simp [hashLineGo]
            · rename_i h1 h2 h3 h4 h5
              simp only [hashLineGo, if_neg h1, if_neg h2, if_neg h3, if_neg h4, if_neg h5]
              rw [ih]

theorem hashLineGo_stable {inS inD esc : Bool} {l p q : List Char}
    (hfull : hashLineGo inS inD esc l = l) (hpq : l = p ++ q) :
    hashLineGo inS inD esc p = p := by
  induction p generalizing inS inD esc l q with
  | nil => simp [hashLineGo]
  | cons c p' ih =>
    subst hpq
    simp only [hashLineGo, List.cons_append] at hfull ⊢
    split at hfull
    · rename_i h1
      rw [if_pos h1]
      have h2 : hashLineGo inS inD false (p' ++ q) = p' ++ q := by injection hfull
      rw [ih h2 rfl]
    · split at hfull
      · rename_i h1 h2
        rw [if_neg h1, if_pos h2]
        have h3 : hashLineGo inS inD true (p' ++ q) = p' ++ q := by injection hfull
        rw [ih h3 rfl]
      · split at hfull
        · rename_i h1 h2 h3
          rw [if_neg h1, if_neg h2, if_pos h3]
          have h4 : hashLineGo (!inS) inD esc (p' ++ q) = p' ++ q := by injection hfull
          rw [ih h4 rfl]
        · split at hfull
          · rename_i h1 h2 h3 h4
            rw [if_neg h1, if_neg h2, if_neg h3, if_pos h4]
            have h5 : hashLineGo inS (!inD) esc (p' ++ q) = p' ++ q := by injection hfull
            rw [ih h5 rfl]
          · split at hfull
            · simp at hfull
            · rename_i h1 h2 h3 h4 h5
              rw [if_neg h1, if_neg h2, if_neg h3, if_neg h4, if_neg h5]
              have h6 : hashLineGo inS inD esc (p' ++ q) = p' ++ q := by injection hfull
              rw [ih h6 rfl]

theorem hashLine_sublist (l : List Char) : List.Sublist (hashLine l) l :=
  List.Sublist.trans (rstrip_sublist _) (hashLineGo_sublist ..)

theorem hashLine_idem (l : List Char) : hashLine (hashLine l) = hashLine l := by
  have hQ1 := hashLineGo_idem false false false l
  obtain ⟨t, ht⟩ := rstrip_append_spaces (hashLineGo false false false l)
  have hstable := hashLineGo_stable hQ1 ht
  show rstrip (hashLineGo false false false (rstrip (hashLineGo false false false l))) = _
  rw [hstable, rstrip_idem]
  rfl

example : splitlines ['a', '\n'] = [['a']] := by decide

example : splitlines ['a', '\r', '\n', 'b'] = [['a'], ['b']] := by decide

example : strip_hash_comments ['\n', '#', 'b'] = ['\n'] := by decide

example : strip_hash_comments ['\n'] = [] := by decide

example :
    strip_c_style_comments ['a', '/', '/', 'b', '\n', 'c', '/', '*', 'x', '*', '/', 'd'] =
      ['a', '\n', 'c', 'd'] := by decide

example : strip_c_style_comments ['"', '/', '/', '"', '/', '/', 'z'] = ['"', '/', '/', '"'] := by
  decide

example : strip_css_comments ['a', '/', '*', 'x', '*', '/', 'b'] = ['a', 'b'] := by decide

example : strip_sql_line_comment
    ['a', '\'', 'x', '\'', '\'', 'y', '\'', '-', '-', 'z'] = ['a', '\'', 'x', '\'', '\'', 'y', '\''] := by decide

example : strip_line_comment ['a', ' ', '-', '-', 'b'] ['-', '-'] = ['a'] := by decide

example : strip_line_comment ['a', '\\', '-', '-', 'b'] ['-', '-'] = ['a', '\\', '-', '-', 'b'] := by
  decide

example : strip_lisp_comments ['a', ' ', ';', 'b', '\n', 'c'] = ['a', '\n', 'c'] := by decide

example : strip_comments ['#', 'x'] ['.', 'P', 'Y'] = [] := by decide

example : strip_comments ['#', 'x'] ['.', 'x', 'y', 'z'] = ['#', 'x'] := by decide

theorem strip_comments_hash {content suffix : List Char}
    (h : hashExts.contains (suffix.map Char.toLower) = true) :
    strip_comments content suffix = strip_hash_comments content := by
  simp only [strip_comments]
  rw [if_pos h]

/-! ### Sublist lemmas for every scanner (used by claim C3) -/

theorem lispLineGo_sublist (inStr esc : Bool) (l : List Char) :
    List.Sublist (lispLineGo inStr esc l) l := by
  induction l generalizing inStr esc with
  | nil => simp [lispLineGo]
  | cons c t ih =>
    simp only [lispLineGo]
    split
    · exact List.Sublist.cons₂ _ (ih ..)
    · split
      · exact List.Sublist.cons₂ _ (ih ..)
      · split
        · exact List.Sublist.cons₂ _ (ih ..)
        · split
          · exact List.nil_sublist _
          · exact List.Sublist.cons₂ _ (ih ..)

theorem lispLine_sublist (l : List Char) : List.Sublist (lispLine l) l :=
  List.Sublist.trans (rstrip_sublist _) (lispLineGo_sublist ..)

theorem strip_sql_line_comment_sublist (l : List Char) :
    List.Sublist (strip_sql_line_comment l) l := by
  unfold strip_sql_line_comment
  split
  · exact List.Sublist.trans (rstrip_sublist _) (List.take_sublist _ _)
  · exact List.Sublist.refl _

theorem strip_line_comment_sublist (l marker : List Char) :
    List.Sublist (strip_line_comment l marker) l := by
  unfold strip_line_comment
  split
  · exact List.Sublist.trans (rstrip_sublist _) (List.take_sublist _ _)
  · exact List.Sublist.refl _

theorem map_dropLast_comm (f : List Char → List Char) :
    ∀ ls : List (List Char), (ls.dropLast).map f = (ls.map f).dropLast := by
  intro ls
  induction ls with
  | nil => rfl
  | cons a as ih =>
    cases as with
    | nil => rfl
    | cons b bs => simp [List.dropLast_cons₂, ih]

theorem joinNl_dropLast_sublist (xs : List (List Char)) :
    List.Sublist (joinNl xs.dropLast) (joinNl xs) := by
  induction xs with
  | nil => simp
  | cons x ys ih =>
    cases ys with
    | nil => simp [joinNl]
    | cons y rest =>
      have hRHS : joinNl (x :: y :: rest) = x ++ '\n' :: joinNl (y :: rest) :=
        joinNl_cons (by simp)
      rw [hRHS, List.dropLast_cons₂]
      cases hrest : (y :: rest).dropLast with
      | nil =>
        show List.Sublist (joinNl [x]) _
        show List.Sublist x _
        exact List.sublist_append_left _ _
      | cons z zs =>
        rw [joinNl_cons (by simp)]
        rw [hrest] at ih
        exact List.Sublist.append_left (List.Sublist.cons₂ _ ih) x

theorem onlyNl_of_sublist {p m : List Char} (h : List.Sublist p m) (hm : onlyNl m) :
    onlyNl p :=
  fun c hc => hm c (h.subset hc)

theorem joinNl_map_slGo_sublist {f : List Char → List Char}
    (Hf : ∀ l, List.Sublist (f l) l) :
    ∀ (t acc : List Char), onlyNl t →
      List.Sublist (joinNl ((slGo false acc t).map f)) (acc.reverse ++ t) := by
  intro t
  induction t with
  | nil =>
    intro acc _
    show List.Sublist (joinNl [f acc.reverse]) _
    show List.Sublist (f acc.reverse) _
    simpa using Hf acc.reverse
  | cons c t' ih =>
    intro acc honly
    have honly' : onlyNl t' := fun d hd hb => honly d (List.mem_cons_of_mem _ hd) hb
    rcases hc : isBreak c
    · rw [slGo_cons_nobreak _ _ hc]
      have := ih (c :: acc) honly'
      simpa using this
    · have hcnl : c = '\n' := honly c (List.mem_cons_self _ _) hc
      subst hcnl
      rw [slGo_nl]
      rw [List.map_cons, joinNl_cons (by simp [slGo_ne_nil])]
      exact List.Sublist.append (Hf acc.reverse)
        (List.Sublist.cons₂ _ (by simpa using ih [] honly'))

theorem lineMap_sublist {f : List Char → List Char}
    (Hf : ∀ l, List.Sublist (f l) l) {s : List Char} (h : onlyNl s) :
    List.Sublist (joinNl ((splitlines s).map f)) s := by
  have hfull : List.Sublist (joinNl ((slGo false [] s).map f)) s := by
    simpa using joinNl_map_slGo_sublist Hf s [] h
  simp only [splitlines]
  split
  · rw [map_dropLast_comm]
    exact List.Sublist.trans (joinNl_dropLast_sublist _) hfull
  · exact hfull

theorem stripBlocks_sublist_aux :
    ∀ (n : Nat) (op cl s : List Char), s.length ≤ n →
      List.Sublist (stripBlocks op cl s) s := by
  intro n
  induction n with
  | zero =>
    intro op cl s hs
    have hs0 : s = [] := List.length_eq_zero.mp (Nat.le_zero.mp hs)
    subst hs0
    rw [stripBlocks.eq_def]
    split
    · exact List.Sublist.refl _
    · rename_i hop
      split
      · exact List.Sublist.refl _
      · rename_i i heq
        exfalso
        simp only [occurs] at heq
        rw [if_neg hop] at heq
        exact absurd heq (by simp)
  | succ n ih =>
    intro op cl s hs
    rw [stripBlocks.eq_def]
    split
    · exact List.Sublist.refl _
    · rename_i hop
      split
      · exact List.Sublist.refl _
      · rename_i i heq
        split
        · exact List.Sublist.refl _
        · rename_i j heq2
          have hopne : op ≠ [] := by
            intro h
            exact hop (by simp [h])
          have hsne : s ≠ [] := by
            intro h
            subst h
            simp only [occurs] at heq
            rw [if_neg hop] at heq
            exact absurd heq (by simp)
          have hXlen : ((s.drop (i + op.length)).drop (j + cl.length)).length ≤ n := by
            simp only [List.length_drop]
            have h1 : 0 < op.length := List.length_pos.mpr hopne
            have h2 : 0 < s.length := List.length_pos.mpr hsne
            omega
          have hrec := ih op cl _ hXlen
          have hXsub : List.Sublist ((s.drop (i + op.length)).drop (j + cl.length))
              (s.drop i) := by
            rw [List.drop_drop]
            rw [show i + op.length + (j + cl.length) =
              i + (op.length + (j + cl.length)) from by omega]
            rw [← List.drop_drop]
            exact List.drop_sublist _ _
          have := List.Sublist.append_left (List.Sublist.trans hrec hXsub) (s.take i)
          simpa [List.take_append_drop] using this

theorem stripBlocks_sublist (op cl s : List Char) :
    List.Sublist (stripBlocks op cl s) s :=
  stripBlocks_sublist_aux s.length op cl s (le_refl _)

theorem cRun_sublist (l : List Char) : ∀ (inS inD esc : Bool) (mode : CMode),
    List.Sublist (cRun inS inD esc mode l) l := by
  induction l with
  | nil => intro _ _ _ _; simp [cRun]
  | cons c t ih =>
    intro inS inD esc mode
    cases mode with
    | lineC =>
      simp only [cRun]
      split
      · rename_i h
        subst h
        exact List.Sublist.cons₂ _ (ih ..)
      · exact List.Sublist.cons _ (ih ..)
    | blockEnter => exact List.Sublist.cons _ (ih ..)
    | blockC =>
      simp only [cRun]
      split
      · exact List.Sublist.cons _ (ih ..)
      · exact List.Sublist.cons _ (ih ..)
    | blockClose => exact List.Sublist.cons _ (ih ..)
    | code =>
      simp only [cRun]
      split
      · exact List.Sublist.cons₂ _ (ih ..)
      · split
        · exact List.Sublist.cons₂ _ (ih ..)
        · split
          · exact List.Sublist.cons₂ _ (ih ..)
          · split
            · exact List.Sublist.cons₂ _ (ih ..)
            · split
              · split
                · exact List.Sublist.cons _ (ih ..)
                · split
                  · exact List.Sublist.cons _ (ih ..)
                  · exact List.Sublist.cons₂ _ (ih ..)
              · exact List.Sublist.cons₂ _ (ih ..)

theorem cssRun_sublist (l : List Char) : ∀ (inS inD : Bool) (mode : CssMode),
    List.Sublist (cssRun inS inD mode l) l := by
  induction l with
  | nil => intro _ _ _; simp [cssRun]
  | cons c t ih =>
    intro inS inD mode
    cases mode with
    | blockC =>
      simp only [cssRun]
      split
      · exact List.Sublist.cons _ (ih ..)
      · exact List.Sublist.cons _ (ih ..)
    | blockClose => exact List.Sublist.cons _ (ih ..)
    | blockEnter => exact List.Sublist.cons _ (ih ..)
    | escNext => exact List.Sublist.cons₂ _ (ih ..)
    | code =>
      simp only [cssRun]
      split
      · exact List.Sublist.cons _ (ih ..)
      · split
        · exact List.Sublist.cons₂ _ (ih ..)
        · split
          · exact List.Sublist.cons₂ _ (ih ..)
          · split
            · exact List.Sublist.cons₂ _ (ih ..)
            · exact List.Sublist.cons₂ _ (ih ..)

theorem strip_hash_comments_sublist {s : List Char} (h : onlyNl s) :
    List.Sublist (strip_hash_comments s) s :=
  lineMap_sublist hashLine_sublist h

theorem strip_lisp_comments_sublist {s : List Char} (h : onlyNl s) :
    List.Sublist (strip_lisp_comments s) s :=
  lineMap_sublist lispLine_sublist h

theorem strip_sql_comments_sublist {s : List Char} (h : onlyNl s) :
    List.Sublist (strip_sql_comments s) s := by
  have hb : List.Sublist (sql_block_pass s) s := stripBlocks_sublist ..
  exact List.Sublist.trans
    (lineMap_sublist strip_sql_line_comment_sublist (onlyNl_of_sublist hb h)) hb

theorem strip_lua_comments_sublist {s : List Char} (h : onlyNl s) :
    List.Sublist (strip_lua_comments s) s := by
  have hb : List.Sublist (stripBlocks ['-', '-', '[', '['] [']', ']'] s) s :=
    stripBlocks_sublist ..
  exact List.Sublist.trans
    (lineMap_sublist (fun l => strip_line_comment_sublist l ['-', '-'])
      (onlyNl_of_sublist hb h)) hb

theorem strip_haskell_comments_sublist {s : List Char} (h : onlyNl s) :
    List.Sublist (strip_haskell_comments s) s := by
  have hb : List.Sublist (stripBlocks ['{', '-'] ['-', '}'] s) s :=
    stripBlocks_sublist ..
  exact List.Sublist.trans
    (lineMap_sublist (fun l => strip_line_comment_sublist l ['-', '-'])
      (onlyNl_of_sublist hb h)) hb

/-! ### Claim C3 -/

/-- Claim C3, counterexample: the output is not always a subsequence of the
input.  The line-oriented families split on every Python line break and
rejoin with `'\n'`, so a `'\r'` terminator is rewritten to `'\n'`:
stripping `"a\rb"` with the Hash family yields `"a\nb"`, which contains a
character the input does not have. -/
theorem claim_c3_counterexample :
    strip_comments ['a', '\r', 'b'] ['.', 'p', 'y'] = ['a', '\n', 'b'] ∧
    ¬ List.Sublist (strip_comments ['a', '\r', 'b'] ['.', 'p', 'y']) ['a', '\r', 'b'] := by
  refine ⟨by decide, ?_⟩
  intro hsub
  have hmem : ('\n' : Char) ∈ ['a', '\r', 'b'] := hsub.subset (by decide)
  exact absurd hmem (by decide)

/-- Claim C3, amended: for every syntax-family tag and every input whose
line terminators are all plain `'\n'` (no `'\r'` or other exotic breaks,
which `splitlines` would rewrite to `'\n'`), the output of `stripComments`
is a subsequence of the input: characters are only excised, never
reordered or invented. -/
theorem claim_c3_theorem (content ext : List Char) (h : onlyNl content) :
    List.Sublist (strip_comments content ext) content := by
  simp only [strip_comments]
  split
  · exact strip_hash_comments_sublist h
  · split
    · exact cRun_sublist ..
    · split
      · exact stripBlocks_sublist ..
      · split
        · exact cssRun_sublist ..
        · split
          · exact strip_sql_comments_sublist h
          · split
            · exact strip_lua_comments_sublist h
            · split
              · exact strip_haskell_comments_sublist h
              · split
                · exact strip_lisp_comments_sublist h
                · exact List.Sublist.refl _

/-- Claim C3, witness for the amended theorem: stripping `"a\n#b"` with the
Hash family yields `"a\n"`, a subsequence of the input. -/
theorem claim_c3_witness :
    List.Sublist (strip_comments ['a', '\n', '#', 'b'] ['.', 'p', 'y'])
      ['a', '\n', '#', 'b'] :=
  claim_c3_theorem ['a', '\n', '#', 'b'] ['.', 'p', 'y'] (by
    simp only [onlyNl]
    decide)

/-! ### Claim C1 -/

/-- Claim C1, counterexample: stripping is not idempotent for every family
tag and input.  For the Hash family (tag `.py`) and input `"\n#b"`, the
first strip empties the final line, leaving `"\n"`; the second strip then
drops that trailing newline, giving `""`. -/
theorem claim_c1_counterexample :
    strip_comments (strip_comments ['\n', '#', 'b'] ['.', 'p', 'y']) ['.', 'p', 'y'] ≠
      strip_comments ['\n', '#', 'b'] ['.', 'p', 'y'] := by decide

/-- Claim C1, amended: for the Hash family, `stripComments` is idempotent on
every input whose stripped output does not end in a newline.  (When the
final line strips to empty, the output gains a trailing `"\n"` from the
join, and a second pass removes it via `splitlines`, so full idempotence
fails; other families fail for their own reasons, e.g. HTML comment removal
can splice new `<!-- -->` pairs together.) -/
theorem claim_c1_theorem (s ext : List Char)
    (hext : hashExts.contains (ext.map Char.toLower) = true)
    (h : (strip_comments s ext).getLast? ≠ some '\n') :
    strip_comments (strip_comments s ext) ext = strip_comments s ext := by
  rw [strip_comments_hash hext] at h ⊢
  rw [strip_comments_hash hext]
  have hbf : ∀ l ∈ (splitlines s).map hashLine, breakFree l := by
    intro l hl
    obtain ⟨m, hm, rfl⟩ := List.mem_map.mp hl
    exact breakFree_of_sublist (hashLine_sublist m) (breakFree_of_mem_splitlines hm)
  have hout : strip_hash_comments s = joinNl ((splitlines s).map hashLine) := rfl
  by_cases hnil : (splitlines s).map hashLine = []
  · rw [hout, hnil]
    decide
  · by_cases hlast : ((splitlines s).map hashLine).getLast? = some []
    · rcases hl : (splitlines s).map hashLine with _ | ⟨p, _ | ⟨q, qs⟩⟩
      · exact absurd hl hnil
      · have hp : p = [] := by
          rw [hl] at hlast
          simpa using hlast
        rw [hout, hl, hp]
        decide
      · exfalso
        apply h
        rw [hl] at hlast
        rw [hout, hl]
        exact getLast?_joinNl_of_last_nil hlast (by simp)
    · have hround := splitlines_joinNl hnil hbf hlast
      calc strip_hash_comments (strip_hash_comments s)
          = joinNl ((splitlines (joinNl ((splitlines s).map hashLine))).map hashLine) := rfl
        _ = joinNl (((splitlines s).map hashLine).map hashLine) := by rw [hround]
        _ = joinNl ((splitlines s).map hashLine) := by
            rw [List.map_map]
            exact congrArg _ (List.map_congr_left (fun x _ => hashLine_idem x))
        _ = strip_hash_comments s := rfl

/-- Claim C1, witness for the amended theorem at the input `"a"` with tag
`.py`: the stripped output is `"a"`, which does not end in a newline, and
stripping twice indeed equals stripping once. -/
theorem claim_c1_witness :
    strip_comments (strip_comments ['a'] ['.', 'p', 'y']) ['.', 'p', 'y'] =
      strip_comments ['a'] ['.', 'p', 'y'] :=
  claim_c1_theorem ['a'] ['.', 'p', 'y'] (by decide) (by decide)

/-! ### Claim C10 -/

theorem getLast?_map_f {f : List Char → List Char} {ls : List (List Char)}
    {l : List Char} (h : ls.getLast? = some l) :
    (ls.map f).getLast? = some (f l) := by
  induction ls with
  | nil => simp at h
  | cons a as ih =>
    cases as with
    | nil =>
      have : a = l := by simpa using h
      subst this
      rfl
    | cons b bs =>
      rw [List.getLast?_cons_cons] at h
      simp only [List.map_cons, List.getLast?_cons_cons]
      simpa using ih h

theorem stripBlocks_no_open {op cl s : List Char} (h : occurs op s = none) :
    stripBlocks op cl s = s := by
  rw [stripBlocks.eq_def]
  split
  · rfl
  · split
    · rfl
    · rename_i heq
      rw [h] at heq
      exact absurd heq (by simp)

/-- Claim C10, counterexample: for the Hash family, an input ending in a
newline can still strip to an output ending in a newline.  `"a\n\n"` has an
empty final line; `splitlines` gives `["a", ""]`, which rejoins to `"a\n"`,
so the output does end with a newline character. -/
theorem claim_c10_counterexample :
    (['a', '\n', '\n'] : List Char).getLast? = some '\n' ∧
    strip_comments ['a', '\n', '\n'] ['.', 'p', 'y'] = ['a', '\n'] ∧
    (strip_comments ['a', '\n', '\n'] ['.', 'p', 'y']).getLast? = some '\n' := by
  decide

/-- Claim C10, amended: the final line terminator never survives as the last
line's own terminator — the processed lines are rejoined with `'\n'` only
between lines.  Concretely: for the Hash family, whenever the input ends in
a newline and its final `splitlines` line strips to a nonempty string, the
output does not end in a newline; and in all five line-oriented families
(Hash, Lisp, SQL, Lua, Haskell) stripping `"x\n"` yields `"x"`.  (When the
final line strips to empty, the separator of the previous line can still
leave the output ending in `'\n'`, as in the counterexample.) -/
theorem claim_c10_theorem :
    (∀ s l : List Char, s.getLast? = some '\n' → (splitlines s).getLast? = some l →
      hashLine l ≠ [] → (strip_comments s ['.', 'p', 'y']).getLast? ≠ some '\n') ∧
    strip_comments ['x', '\n'] ['.', 'p', 'y'] = ['x'] ∧
    strip_comments ['x', '\n'] ['.', 'e', 'l'] = ['x'] ∧
    strip_comments ['x', '\n'] ['.', 's', 'q', 'l'] = ['x'] ∧
    strip_comments ['x', '\n'] ['.', 'l', 'u', 'a'] = ['x'] ∧
    strip_comments ['x', '\n'] ['.', 'h', 's'] = ['x'] := by
  refine ⟨?_, by decide, by decide, ?_, ?_, ?_⟩
  · intro s l hs hsl hne hcontra
    have hmem : l ∈ splitlines s := List.mem_of_mem_getLast? hsl
    have hbf : breakFree (hashLine l) :=
      breakFree_of_sublist (hashLine_sublist l) (breakFree_of_mem_splitlines hmem)
    have hlast_ps : ((splitlines s).map hashLine).getLast? = some (hashLine l) :=
      getLast?_map_f hsl
    have hout : strip_comments s ['.', 'p', 'y'] =
        joinNl ((splitlines s).map hashLine) := strip_comments_hash (by decide)
    rw [hout, getLast?_joinNl hlast_ps hne] at hcontra
    have hmem2 : '\n' ∈ hashLine l := List.mem_of_mem_getLast? hcontra
    have := hbf '\n' hmem2
    simp [isBreak] at this
  · have hb : sql_block_pass ['x', '\n'] = ['x', '\n'] := stripBlocks_no_open (by decide)
    show joinNl ((splitlines (sql_block_pass ['x', '\n'])).map strip_sql_line_comment) = ['x']
    rw [hb]
    decide
  · have hb : stripBlocks ['-', '-', '[', '['] [']', ']'] ['x', '\n'] = ['x', '\n'] :=
      stripBlocks_no_open (by decide)
    show joinNl ((splitlines (stripBlocks ['-', '-', '[', '['] [']', ']'] ['x', '\n'])).map
      (fun l => strip_line_comment l ['-', '-'])) = ['x']
    rw [hb]
    decide
  · have hb : stripBlocks ['{', '-'] ['-', '}'] ['x', '\n'] = ['x', '\n'] :=
      stripBlocks_no_open (by decide)
    show joinNl ((splitlines (stripBlocks ['{', '-'] ['-', '}'] ['x', '\n'])).map
      (fun l => strip_line_comment l ['-', '-'])) = ['x']
    rw [hb]
    decide

/-- Claim C10, witness for the universal part of the amended theorem at
input `"x\n"`: the input ends in a newline, its final line is `"x"`, which
strips to the nonempty `"x"`, and the output `"x"` indeed does not end in a
newline. -/
theorem claim_c10_witness :
    (strip_comments ['x', '\n'] ['.', 'p', 'y']).getLast? ≠ some '\n' :=
  claim_c10_theorem.1 ['x', '\n'] ['x'] (by decide) (by decide) (by decide)

/-! ### Claim C9 -/

/-- Claim C9: for the Hash family, the line
`x = "He said \"hi\" # not a comment"` is returned verbatim: the escaped
quotes do not close the double-quoted string, so the `#` lies inside the
string and is not treated as a comment, and there is no trailing whitespace
to trim. -/
theorem claim_c9_theorem :
    strip_comments
      ['x', ' ', '=', ' ', '"', 'H', 'e', ' ', 's', 'a', 'i', 'd', ' ',
       '\\', '"', 'h', 'i', '\\', '"', ' ', '#', ' ', 'n', 'o', 't', ' ',
       'a', ' ', 'c', 'o', 'm', 'm', 'e', 'n', 't', '"'] ['.', 'p', 'y'] =
    ['x', ' ', '=', ' ', '"', 'H', 'e', ' ', 's', 'a', 'i', 'd', ' ',
     '\\', '"', 'h', 'i', '\\', '"', ' ', '#', ' ', 'n', 'o', 't', ' ',
     'a', ' ', 'c', 'o', 'm', 'm', 'e', 'n', 't', '"'] := by decide

/-! ### Claim C5 -/

/-- Claim C5: `stripComments` is total by construction (it is a Lean
function), and on any extension outside every family table it returns the
content unchanged. -/
theorem claim_c5_theorem (content ext : List Char)
    (h1 : hashExts.contains (ext.map Char.toLower) = false)
    (h2 : cStyleExts.contains (ext.map Char.toLower) = false)
    (h3 : htmlExts.contains (ext.map Char.toLower) = false)
    (h4 : cssExts.contains (ext.map Char.toLower) = false)
    (h5 : sqlExts.contains (ext.map Char.toLower) = false)
    (h6 : luaExts.contains (ext.map Char.toLower) = false)
    (h7 : haskellExts.contains (ext.map Char.toLower) = false)
    (h8 : lispExts.contains (ext.map Char.toLower) = false) :
    strip_comments content ext = content := by
  have g1 : List.map Char.toLower ext ∉ hashExts := by simpa using h1
  have g2 : List.map Char.toLower ext ∉ cStyleExts := by simpa using h2
  have g3 : List.map Char.toLower ext ∉ htmlExts := by simpa using h3
  have g4 : List.map Char.toLower ext ∉ cssExts := by simpa using h4
  have g5 : List.map Char.toLower ext ∉ sqlExts := by simpa using h5
  have g6 : List.map Char.toLower ext ∉ luaExts := by simpa using h6
  have g7 : List.map Char.toLower ext ∉ haskellExts := by simpa using h7
  have g8 : List.map Char.toLower ext ∉ lispExts := by simpa using h8
  simp [strip_comments, g1, g2, g3, g4, g5, g6, g7, g8]

/-- Claim C5, witness: `stripComments("# keep me", ".xyz")` returns the
input unchanged, since `.xyz` belongs to no family table. -/
theorem claim_c5_witness :
    strip_comments ['#', ' ', 'k', 'e', 'e', 'p', ' ', 'm', 'e'] ['.', 'x', 'y', 'z'] =
      ['#', ' ', 'k', 'e', 'e', 'p', ' ', 'm', 'e'] :=
  claim_c5_theorem _ _ (by decide) (by decide) (by decide) (by decide) (by decide)
    (by decide) (by decide) (by decide)

/-! ### Claim C8 -/

/-- Claim C8: in the SQL line scanner a doubled quote inside its matching
literal consumes both characters and stays inside the literal (`''` inside
a single-quoted string, `""` inside a double-quoted identifier), so a `--`
after such a literal is still recognized: stripping
`SELECT 'it''s ok' as text; -- comment` with the SQL family retains
`SELECT 'it''s ok' as text;` and removes the comment. -/
theorem claim_c8_theorem :
    (∀ (i : Nat) (rest : List Char),
      sqlLineIdx true false i ('\'' :: '\'' :: rest) = sqlLineIdx true false (i + 2) rest) ∧
    (∀ (i : Nat) (rest : List Char),
      sqlLineIdx false true i ('"' :: '"' :: rest) = sqlLineIdx false true (i + 2) rest) ∧
    strip_comments
      ['S', 'E', 'L', 'E', 'C', 'T', ' ', '\'', 'i', 't', '\'', '\'', 's',
       ' ', 'o', 'k', '\'', ' ', 'a', 's', ' ', 't', 'e', 'x', 't', ';',
       ' ', '-', '-', ' ', 'c', 'o', 'm', 'm', 'e', 'n', 't'] ['.', 's', 'q', 'l'] =
    ['S', 'E', 'L', 'E', 'C', 'T', ' ', '\'', 'i', 't', '\'', '\'', 's',
     ' ', 'o', 'k', '\'', ' ', 'a', 's', ' ', 't', 'e', 'x', 't', ';'] := by
  refine ⟨fun i rest => by simp [sqlLineIdx], fun i rest => by simp [sqlLineIdx], ?_⟩
  have hb : sql_block_pass
      ['S', 'E', 'L', 'E', 'C', 'T', ' ', '\'', 'i', 't', '\'', '\'', 's',
       ' ', 'o', 'k', '\'', ' ', 'a', 's', ' ', 't', 'e', 'x', 't', ';',
       ' ', '-', '-', ' ', 'c', 'o', 'm', 'm', 'e', 'n', 't'] =
      ['S', 'E', 'L', 'E', 'C', 'T', ' ', '\'', 'i', 't', '\'', '\'', 's',
       ' ', 'o', 'k', '\'', ' ', 'a', 's', ' ', 't', 'e', 'x', 't', ';',
       ' ', '-', '-', ' ', 'c', 'o', 'm', 'm', 'e', 'n', 't'] :=
    stripBlocks_no_open (by decide)
  show joinNl ((splitlines (sql_block_pass _)).map strip_sql_line_comment) = _
  rw [hb]
  decide

/-! ### Claim C2 -/

theorem stripBlocks_unterminated {op cl s : List Char} {i : Nat}
    (h1 : occurs op s = some i) (h2 : occurs cl (s.drop (i + op.length)) = none) :
    stripBlocks op cl s = s := by
  rw [stripBlocks.eq_def]
  split
  · rfl
  · split
    · rfl
    · rename_i i' heq
      rw [h1] at heq
      injection heq with heq'
      subst heq'
      split
      · rfl
      · rename_i j heq2
        rw [h2] at heq2
        simp at heq2

/-- Claim C2, counterexample: an unterminated block comment is NOT removed
to the end of input.  For HTML, `"<!--x"` contains the opener `<!--` at
index 0 with no closer after it, yet the output still contains everything
from the opener; same for the SQL block pass on `"/*x"`. -/
theorem claim_c2_counterexample :
    occurs ['<', '!', '-', '-'] ['<', '!', '-', '-', 'x'] = some 0 ∧
    strip_html_comments ['<', '!', '-', '-', 'x'] = ['<', '!', '-', '-', 'x'] ∧
    occurs ['/', '*'] ['/', '*', 'x'] = some 0 ∧
    sql_block_pass ['/', '*', 'x'] = ['/', '*', 'x'] :=
  ⟨by decide, stripBlocks_unterminated (i := 0) (by decide) (by decide),
   by decide, stripBlocks_unterminated (i := 0) (by decide) (by decide)⟩

/-- Claim C2, amended: for the HTML family and the SQL block-comment pass,
an unterminated block comment is left in place, not removed: when the first
opener (`<!--` resp. `/*`) has no closer (`-->` resp. `*/`) after it, the
`re.sub` pattern matches nothing at all and the input passes through the
block-removal unchanged. -/
theorem claim_c2_theorem (s : List Char) (i : Nat) :
    (occurs ['<', '!', '-', '-'] s = some i →
      occurs ['-', '-', '>'] (s.drop (i + 4)) = none →
      strip_html_comments s = s) ∧
    (occurs ['/', '*'] s = some i →
      occurs ['*', '/'] (s.drop (i + 2)) = none →
      sql_block_pass s = s) :=
  ⟨fun h1 h2 => stripBlocks_unterminated h1 h2,
   fun h1 h2 => stripBlocks_unterminated h1 h2⟩

/-- Claim C2, witness for the amended theorem: `"<!--y"` and `"/*y"` pass
through the HTML strip and the SQL block pass unchanged. -/
theorem claim_c2_witness :
    strip_html_comments ['<', '!', '-', '-', 'y'] = ['<', '!', '-', '-', 'y'] ∧
    sql_block_pass ['/', '*', 'y'] = ['/', '*', 'y'] :=
  ⟨( claim_c2_theorem ['<', '!', '-', '-', 'y'] 0).1 (by decide) (by decide),
   ( claim_c2_theorem ['/', '*', 'y'] 0).2 (by decide) (by decide)⟩

/-! ### Claim C4 -/

/-- Claim C4, counterexample: in `_strip_line_comment` (the Lua/Haskell
line pass) a backslash sets the pending escape even OUTSIDE strings, so in
the line `a\--b` the first `-` is consumed as escaped and the line is NOT
cut at the `--` marker, contrary to the §4.2 policy the claim asserts. -/
theorem claim_c4_counterexample :
    strip_line_comment ['a', '\\', '-', '-', 'b'] ['-', '-'] =
      ['a', '\\', '-', '-', 'b'] ∧
    strip_line_comment ['a', '\\', '-', '-', 'b'] ['-', '-'] ≠ rstrip ['a', '\\'] := by
  decide

theorem c4_scan_helper (pre suf : List Char) (i : Nat)
    (hq : ∀ c ∈ pre, ¬(c = '\'' ∨ c = '"' ∨ c = '\\'))
    (hocc : occurs ['-', '-'] (pre ++ ['-']) = none) :
    lineCommentIdx ['-', '-'] false false false i (pre ++ '-' :: '-' :: suf) =
      some (i + pre.length) := by
  induction pre generalizing i with
  | nil =>
    simp [lineCommentIdx, List.isPrefixOf]
  | cons c pre' ih =>
    have hc := hq c (List.mem_cons_self _ _)
    push_neg at hc
    obtain ⟨hc1, hc2, hc3⟩ := hc
    rw [List.cons_append] at hocc
    obtain ⟨hocc1, hocc2⟩ := occurs_cons_none hocc
    have hpfx : (['-', '-'] : List Char).isPrefixOf
        (c :: (pre' ++ '-' :: '-' :: suf)) = false := by
      rcases hp : (['-', '-'] : List Char).isPrefixOf (c :: (pre' ++ '-' :: '-' :: suf))
      · rfl
      · exfalso
        obtain ⟨rfl, hhead⟩ := isPrefixOf_two.mp hp
        have : (['-', '-'] : List Char).isPrefixOf ('-' :: (pre' ++ ['-'])) = true := by
          refine isPrefixOf_two.mpr ⟨rfl, ?_⟩
          cases pre' with
          | nil => rfl
          | cons d pre'' => simpa using (by simpa using hhead : d = '-') ▸ rfl
        rw [this] at hocc1
        exact absurd hocc1 (by simp)
    rw [List.cons_append]
    simp only [lineCommentIdx, if_neg, hc1, hc2, hc3, hpfx]
    rw [if_neg (by simp), if_neg (by simp [hc3]), if_neg (by simp [hc1]),
      if_neg (by simp [hc2]), if_neg (by simp [hpfx])]
    rw [ih (i + 1) (fun d hd => hq d (List.mem_cons_of_mem _ hd)) hocc2]
    have : i + 1 + pre'.length = i + (c :: pre').length := by simp; omega
    rw [this]

/-- Claim C4, amended: in the Lua/Haskell line pass a backslash sets the
pending escape unconditionally (inside OR outside strings), so the claimed
behavior only holds when the marker is not shadowed by an escape: for any
line `pre ++ "--" ++ suf` in which `pre` contains no quote and no
backslash, and `pre ++ "-"` contains no `--` (so the cut happens exactly at
this marker), the line is cut at the marker and the kept prefix is
trailing-whitespace-trimmed. -/
theorem claim_c4_theorem (pre suf : List Char)
    (hq : ∀ c ∈ pre, ¬(c = '\'' ∨ c = '"' ∨ c = '\\'))
    (hocc : occurs ['-', '-'] (pre ++ ['-']) = none) :
    strip_line_comment (pre ++ '-' :: '-' :: suf) ['-', '-'] = rstrip pre := by
  unfold strip_line_comment
  rw [c4_scan_helper pre suf 0 hq hocc]
  have : (0 : Nat) + pre.length = pre.length := by omega
  rw [this]
  show rstrip (List.take pre.length (pre ++ '-' :: '-' :: suf)) = rstrip pre
  rw [List.take_left]

/-- Claim C4, witness for the amended theorem at the line `"a --b"`: the
marker is outside any string and unshadowed, and the line is cut before it
with the trailing space trimmed. -/
theorem claim_c4_witness :
    strip_line_comment ['a', ' ', '-', '-', 'b'] ['-', '-'] = rstrip ['a', ' '] :=
  claim_c4_theorem ['a', ' '] ['b'] (by decide) (by decide)

/-! ### Claim C6 -/

theorem cRun_in_double (v w : List Char) (hv : ∀ c ∈ v, c ≠ '"' ∧ c ≠ '\\') :
    cRun false true false CMode.code (v ++ '"' :: w) =
      v ++ '"' :: cRun false false false CMode.code w := by
  induction v with
  | nil => simp [cRun]
  | cons c v' ih =>
    obtain ⟨h1, h2⟩ := hv c (List.mem_cons_self _ _)
    have ih' := ih (fun d hd => hv d (List.mem_cons_of_mem _ hd))
    simp only [List.cons_append, cRun]
    rw [if_neg (by simp), if_neg (by simp [h2]), if_neg (by simp),
      if_neg (by simp [h1]), if_neg (by simp)]
    rw [List.append_eq, ih']

theorem cRun_in_single (v w : List Char) (hv : ∀ c ∈ v, c ≠ '\'' ∧ c ≠ '\\') :
    cRun true false false CMode.code (v ++ '\'' :: w) =
      v ++ '\'' :: cRun false false false CMode.code w := by
  induction v with
  | nil => simp [cRun]
  | cons c v' ih =>
    obtain ⟨h1, h2⟩ := hv c (List.mem_cons_self _ _)
    have ih' := ih (fun d hd => hv d (List.mem_cons_of_mem _ hd))
    simp only [List.cons_append, cRun]
    rw [if_neg (by simp), if_neg (by simp [h2]), if_neg (by simp [h1]),
      if_neg (by simp), if_neg (by simp)]
    rw [List.append_eq, ih']

/-- Claim C6: in the C-style scanner, the contents of a retained string
literal are emitted byte-for-byte, whatever they contain (in particular
`//` or `/*`), and a `//` comment outside strings is removed: a
double-quoted literal with no inner `"` or `\` passes through unchanged
with scanning resuming after it; same for single quotes; and the spec's
example `x = "// not a comment"; // real` keeps the string and drops the
comment. -/
theorem claim_c6_theorem :
    (∀ v w : List Char, (∀ c ∈ v, c ≠ '"' ∧ c ≠ '\\') →
      strip_c_style_comments ('"' :: v ++ '"' :: w) =
        '"' :: v ++ '"' :: strip_c_style_comments w) ∧
    (∀ v w : List Char, (∀ c ∈ v, c ≠ '\'' ∧ c ≠ '\\') →
      strip_c_style_comments ('\'' :: v ++ '\'' :: w) =
        '\'' :: v ++ '\'' :: strip_c_style_comments w) ∧
    strip_comments
      ['x', ' ', '=', ' ', '"', '/', '/', ' ', 'n', 'o', 't', ' ', 'a', ' ',
       'c', 'o', 'm', 'm', 'e', 'n', 't', '"', ';', ' ', '/', '/', ' ',
       'r', 'e', 'a', 'l'] ['.', 'j', 's'] =
    ['x', ' ', '=', ' ', '"', '/', '/', ' ', 'n', 'o', 't', ' ', 'a', ' ',
     'c', 'o', 'm', 'm', 'e', 'n', 't', '"', ';', ' '] := by
  refine ⟨?_, ?_, by decide⟩
  · intro v w hv
    show cRun false false false CMode.code ('"' :: (v ++ '"' :: w)) = _
    simp only [cRun]
    rw [if_neg (by simp), if_neg (by simp), if_neg (by simp), if_pos (by simp)]
    simp only [Bool.not_false]
    rw [cRun_in_double v w hv]
    rfl
  · intro v w hv
    show cRun false false false CMode.code ('\'' :: (v ++ '\'' :: w)) = _
    simp only [cRun]
    rw [if_neg (by simp), if_neg (by simp), if_pos (by simp)]
    simp only [Bool.not_false]
    rw [cRun_in_single v w hv]
    rfl

/-- Claim C6, witness: the string literal `"//"` passes through unchanged
while the following `//z` line comment is removed. -/
theorem claim_c6_witness :
    strip_c_style_comments ['"', '/', '/', '"', '/', '/', 'z'] = ['"', '/', '/', '"'] := by
  have h := claim_c6_theorem.1 ['/', '/'] ['/', '/', 'z'] (by decide)
  calc strip_c_style_comments ['"', '/', '/', '"', '/', '/', 'z']
      = '"' :: ['/', '/'] ++ '"' :: strip_c_style_comments ['/', '/', 'z'] := h
    _ = ['"', '/', '/', '"'] := by decide

/-! ### Claim C7 -/

theorem cRun_blockC_no_close {suf : List Char} (h : occurs ['*', '/'] suf = none)
    (inS inD esc : Bool) : cRun inS inD esc CMode.blockC suf = [] := by
  induction suf with
  | nil => rfl
  | cons c t ih =>
    obtain ⟨h1, h2⟩ := occurs_cons_none h
    have hcl : ¬(c = '*' ∧ t.head? = some '/') := by
      intro hc
      rw [isPrefixOf_two.mpr hc] at h1
      exact absurd h1 (by simp)
    simp only [cRun]
    rw [if_neg hcl]
    exact ih h2

/-- Claim C7: for the C-style family, an unterminated block comment consumes
to the end of input.  For any input `pre ++ "/*" ++ suf` where `pre`
contains no quote, no backslash and no slash (so the scanner reaches the
`/*` outside any string and `pre` strips to itself) and `suf` contains no
`*/`, the output is exactly `pre` — nothing from the `/*` onward is kept. -/
theorem claim_c7_theorem (pre suf : List Char)
    (hpre : ∀ c ∈ pre, ¬(c = '\'' ∨ c = '"' ∨ c = '\\' ∨ c = '/'))
    (hsuf : occurs ['*', '/'] suf = none) :
    strip_c_style_comments (pre ++ '/' :: '*' :: suf) = pre := by
  induction pre with
  | nil =>
    show cRun false false false CMode.code ('/' :: '*' :: suf) = []
    simp only [cRun]
    rw [if_neg (by simp), if_neg (by simp), if_neg (by simp), if_neg (by simp),
      if_pos (by simp), if_neg (by simp), if_pos (by simp)]
    show cRun false false false CMode.blockC suf = []
    exact cRun_blockC_no_close hsuf ..
  | cons c pre' ih =>
    have hc := hpre c (List.mem_cons_self _ _)
    push_neg at hc
    obtain ⟨hc1, hc2, hc3, hc4⟩ := hc
    have ih' := ih (fun d hd => hpre d (List.mem_cons_of_mem _ hd))
    show cRun false false false CMode.code (c :: (pre' ++ '/' :: '*' :: suf)) =
      c :: pre'
    simp only [cRun]
    rw [if_neg (by simp), if_neg (by simp [hc3]), if_neg (by simp [hc1]),
      if_neg (by simp [hc2]), if_pos (by simp), if_neg (by simp [hc4]),
      if_neg (by simp [hc4])]
    exact congrArg (c :: ·) ih'

/-- Claim C7, witness at the spec's own example `const x=5;\n/* never
closed\nmore text`: the output is exactly `const x=5;\n` — the stripped
text before the `/*` — and nothing after the opener survives. -/
theorem claim_c7_witness :
    strip_c_style_comments
      (['c', 'o', 'n', 's', 't', ' ', 'x', '=', '5', ';', '\n'] ++
        '/' :: '*' :: [' ', 'n', 'e', 'v', 'e', 'r', ' ', 'c', 'l', 'o',
          's', 'e', 'd', '\n', 'm', 'o', 'r', 'e', ' ', 't', 'e', 'x', 't']) =
    ['c', 'o', 'n', 's', 't', ' ', 'x', '=', '5', ';', '\n'] :=
  claim_c7_theorem
    ['c', 'o', 'n', 's', 't', ' ', 'x', '=', '5', ';', '\n']
    [' ', 'n', 'e', 'v', 'e', 'r', ' ', 'c', 'l', 'o', 's', 'e', 'd', '\n',
     'm', 'o', 'r', 'e', ' ', 't', 'e', 'x', 't'] (by decide) (by decide)

end UithubLocal
